import Mathlib

/-!
Shallow embedding of the compile-time bit-manipulation core of the repository
(file src/BitsCompileTime.hpp) and proofs about it.

Machine integers of an unsigned C++ type T of bit width W are modelled as
natural numbers, with an explicit reduction modulo 2 ^ W wherever the C++
code truncates (casts to T, assignments into a variable of type T, shifts
performed directly in T).  The 64-bit type used for bit patterns
(BitPatterns::Longest, i.e. unsigned long long) is modelled with an explicit
reduction modulo 2 ^ 64.  Template metafunctions become recursive functions
of their template parameters.
-/

/-- CompileTimeFunctions::ceilDiv (BitsCompileTime.hpp lines 14-18):
integer ceiling division, computed as ( a + b - 1 ) / b. -/
def ceilDiv (a b : Nat) : Nat :=
  (a + b - 1) / b

/-- Fuel-indexed form of the template recursion CompileTimeFunctions::FloorLog
(BitsCompileTime.hpp lines 34-42): FloorLog<B,X>::value = 1 + FloorLog<B,X/B>,
with specializations FloorLog<B,0> = FloorLog<B,1> = 0.  The fuel only bounds
the recursion depth; for B >= 2 the template recursion terminates and the fuel
X used by floorLog below is always sufficient (the argument strictly
decreases; the analogous fact is proved as ceilLogFuel_congr for the ceiling
variant, the only one the dilution code relies on).  For B <= 1 the C++ template recursion
does not terminate (the compiler rejects the instantiation); those arguments
are outside the modelled domain and the guard returns 0 there. -/
def floorLogFuel (B : Nat) : Nat → Nat → Nat
  | 0, _ => 0
  | f + 1, X => if 2 ≤ B ∧ 2 ≤ X then 1 + floorLogFuel B f (X / B) else 0

/-- CompileTimeFunctions::FloorLog<B,X>::value. -/
def floorLog (B X : Nat) : Nat :=
  floorLogFuel B X X

/-- Fuel-indexed form of the template recursion CompileTimeFunctions::CeilLog
(BitsCompileTime.hpp lines 47-55): CeilLog<B,X>::value = 1 + CeilLog<B, ceilDiv(X,B)>,
with specializations CeilLog<B,0> = CeilLog<B,1> = 0.  Same fuel convention
as floorLogFuel. -/
def ceilLogFuel (B : Nat) : Nat → Nat → Nat
  | 0, _ => 0
  | f + 1, X => if 2 ≤ B ∧ 2 ≤ X then 1 + ceilLogFuel B f (ceilDiv X B) else 0

/-- CompileTimeFunctions::CeilLog<B,X>::value. -/
def ceilLog (B X : Nat) : Nat :=
  ceilLogFuel B X X

/-- BitPatterns::Step<T,N>::value (BitsCompileTime.hpp lines 77-82) for a type
T of width W: Step<T,0> = 0, Step<T,1> = 1, and for N >= 2
Step<T,N> = T( Step<T,N-1> << 1 ) | T(1); the cast to T truncates the shifted
value modulo 2 ^ W. -/
def step (W : Nat) : Nat → Nat
  | 0 => 0
  | 1 => 1
  | n + 2 => ((step W (n + 1)) <<< 1) % 2 ^ W ||| 1

/-- Default value of the template parameter N of BitPatterns::RectangularWave
(BitsCompileTime.hpp line 100): N = ( L+M == 0 ? 0 : ceilDiv( sizeof(T)*CHAR_BIT, L+M ) ). -/
def rwDefaultN (W L M : Nat) : Nat :=
  if L + M = 0 then 0 else ceilDiv W (L + M)

/-- BitPatterns::RectangularWave<T,L,M,N>::value (BitsCompileTime.hpp lines
96-112).  The value member has type Longest (unsigned long long, 64 bits), so
the recursive shift by L+M is performed in 64 bits, not in the width W of T:
RectangularWave<T,L,M,N> = ( RectangularWave<T,L,M,N-1> << (L+M) )
                           | RectangularWave<T,L,M,1>,
with RectangularWave<T,L,M,0> = 0 and RectangularWave<T,L,M,1> = Step<T,L>.
A C++ shift by 64 or more positions would be undefined; the uses inside
DiluteBitsCrumble always shift by less (mask bits stay below 64), and the
reduction modulo 2 ^ 64 models the 64-bit unsigned wraparound. -/
def rectangularWave (W L M : Nat) : Nat → Nat
  | 0 => 0
  | 1 => step W L
  | n + 2 => ((rectangularWave W L M (n + 1)) <<< (L + M)) % 2 ^ 64 ||| step W L

/-- One non-base round of BitFunctions::DiluteBitsCrumble<T,nSpacing,nStepsNeeded,iStep>
(BitsCompileTime.hpp lines 244-262), with b = iStep2Pow = 2^((nStepsNeeded-1)-iStep):
x = ( x | ( x << ( iStep2Pow * nSpacing ) ) )
    & RectangularWave< T, iStep2Pow, iStep2Pow * nSpacing >::value.
The expression is evaluated in the promoted/64-bit type and the assignment
back into the variable x of type T truncates modulo 2 ^ W; for T = unsigned
int / long the shift itself already wraps modulo 2 ^ W.  Both truncation
disciplines give the same value, which is the one computed here. -/
def crumbleRound (W S b x : Nat) : Nat :=
  ((x ||| ((x <<< (b * S)) % 2 ^ W)) &&&
    rectangularWave W b (b * S) (rwDefaultN W b (b * S))) % 2 ^ W

/-- BitFunctions::DiluteBitsCrumble<T,nSpacing,nStepsNeeded,iStep>::apply
(BitsCompileTime.hpp lines 244-270).  The specialization iStep = 0 sanitizes
the input: with nBitsAllowed = 1 + ( sizeof(T)*CHAR_BIT - 1 ) / ( nSpacing + 1 )
it returns x & Ones<T,nBitsAllowed> = x & Step<T,nBitsAllowed>; every other
iStep first applies the next lower specialization and then one crumbleRound
with iStep2Pow = 2^((nStepsNeeded-1) - iStep). -/
def diluteBitsCrumble (W S n : Nat) : Nat → Nat → Nat
  | 0, x => x &&& step W (1 + (W - 1) / (S + 1))
  | i + 1, x => crumbleRound W S (2 ^ (n - 1 - (i + 1))) (diluteBitsCrumble W S n i x)

/-- BitFunctions::diluteBitsRecursive<T,nSpacing> (BitsCompileTime.hpp lines
280-381), without the static_assert( nSpacing > 0 ) guard (for which see
diluteBitsRecursiveChecked):
nBitsAllowed = ceilDiv( nBitsAvailable, nSpacing + 1 ),
nStepsNeeded = 1 + CeilLog< 2, nBitsAllowed >::value, and the result is
DiluteBitsCrumble< T, nSpacing, nStepsNeeded, nStepsNeeded > 0 ? nStepsNeeded-1 : 0 >::apply( rx ).
Since nStepsNeeded = 1 + ... >= 1 the conditional always selects nStepsNeeded-1. -/
def diluteBitsRecursive (W S x : Nat) : Nat :=
  let nBitsAllowed := ceilDiv W (S + 1)
  let nStepsNeeded := 1 + ceilLog 2 nBitsAllowed
  diluteBitsCrumble W S nStepsNeeded (nStepsNeeded - 1) x

/-- BitFunctions::diluteBitsRecursive including its compile-time contract:
the template body starts with static_assert( nSpacing > 0, "" )
(BitsCompileTime.hpp line 283), so instantiations with nSpacing = 0 are
rejected at compile time, modelled as none. -/
def diluteBitsRecursiveChecked (W S x : Nat) : Option Nat :=
  if 0 < S then some (diluteBitsRecursive W S x) else none

/-- part1by1 (BitsCompileTime.hpp lines 397-405): the classical magic-constant
bit interleaving routine on unsigned int (32 bits); every operation wraps
modulo 2 ^ 32. -/
def part1by1 (n : Nat) : Nat :=
  let n1 := n &&& 0x0000ffff
  let n2 := (n1 ||| ((n1 <<< 8) % 2 ^ 32)) &&& 0x00FF00FF
  let n3 := (n2 ||| ((n2 <<< 4) % 2 ^ 32)) &&& 0x0F0F0F0F
  let n4 := (n3 ||| ((n3 <<< 2) % 2 ^ 32)) &&& 0x33333333
  let n5 := (n4 ||| ((n4 <<< 1) % 2 ^ 32)) &&& 0x55555555
  n5

/-- part1by2 (BitsCompileTime.hpp lines 409-417): the classical magic-constant
routine spreading each bit to every third position, on unsigned int (32 bits). -/
def part1by2 (n : Nat) : Nat :=
  let n1 := n &&& 0x000003ff
  let n2 := (n1 ^^^ ((n1 <<< 16) % 2 ^ 32)) &&& 0xFF0000FF
  let n3 := (n2 ^^^ ((n2 <<< 8) % 2 ^ 32)) &&& 0x0300F00F
  let n4 := (n3 ^^^ ((n3 <<< 4) % 2 ^ 32)) &&& 0x030C30C3
  let n5 := (n4 ^^^ ((n4 <<< 2) % 2 ^ 32)) &&& 0x09249249
  n5

/-- Modelled from the spec: the per-round transformation that section 4.2 of
the specification claims each non-base dilution round performs, namely
x = ( x | ( x << blockSize*(S+1) ) ) & RectangularWave( width, blockSize, blockSize*S ).
It differs from crumbleRound (the code) only in the shift amount:
blockSize*(S+1) here versus blockSize*S in the code. -/
def crumbleRoundSpec (W S b x : Nat) : Nat :=
  ((x ||| ((x <<< (b * (S + 1))) % 2 ^ W)) &&&
    rectangularWave W b (b * S) (rwDefaultN W b (b * S))) % 2 ^ W

/-- Specification-side description of a partially diluted value: the low bits
of x, taken in consecutive blocks of b bits, with block g relocated to bit
position g * (b * (S+1)); G blocks are placed.  Block size b = 1 with enough
blocks describes the fully diluted value (each input bit i at position
i * (S+1)). -/
def spreadBlocks (S b : Nat) : Nat → Nat → Nat
  | 0, _ => 0
  | G + 1, x => (x % 2 ^ b) ||| ((spreadBlocks S b G (x / 2 ^ b)) <<< (b * (S + 1)))

/-- Fuel-indexed helper for extractEvery; the fuel y used by extractEvery is
always sufficient for k >= 1 since the argument strictly decreases. -/
def extractEveryFuel (k : Nat) : Nat → Nat → Nat
  | 0, _ => 0
  | f + 1, y => if y = 0 then 0 else (y &&& 1) ||| ((extractEveryFuel k f (y / 2 ^ k)) <<< 1)

/-- Specification-side extraction of every k-th bit starting at position 0:
bit i of the result is bit i * k of the input (for k >= 1). -/
def extractEvery (k y : Nat) : Nat :=
  extractEveryFuel k y y

/-! Arithmetic helper lemmas about ceilDiv. -/

theorem ceilDiv_eq_one_add (W k : Nat) (hW : 1 ≤ W) (hk : 1 ≤ k) :
    ceilDiv W k = 1 + (W - 1) / k := by
  unfold ceilDiv
  have h : W + k - 1 = (W - 1) + k := by omega
  rw [h, Nat.add_div_right _ hk, Nat.add_comm]

theorem le_ceilDiv_mul (W k : Nat) (hk : 1 ≤ k) : W ≤ ceilDiv W k * k := by
  unfold ceilDiv
  have h := Nat.div_add_mod (W + k - 1) k
  have hm : (W + k - 1) % k < k := Nat.mod_lt _ (by omega)
  rw [Nat.mul_comm]
  omega

theorem ceilDiv_le_self (W k : Nat) (hk : 1 ≤ k) : ceilDiv W k ≤ W := by
  unfold ceilDiv
  rw [Nat.div_le_iff_le_mul_add_pred (show 0 < k by omega)]
  have h : W * 1 ≤ k * W := by rw [Nat.mul_one]; exact Nat.le_mul_of_pos_left W (by omega)
  omega

theorem ceilDiv_pos (W k : Nat) (hW : 1 ≤ W) (hk : 1 ≤ k) : 1 ≤ ceilDiv W k := by
  unfold ceilDiv
  rw [Nat.one_le_div_iff (show 0 < k by omega)]
  omega

theorem ceilDiv_lt_self (X B : Nat) (hX : 2 ≤ X) (hB : 2 ≤ B) : ceilDiv X B < X := by
  unfold ceilDiv
  rw [Nat.div_lt_iff_lt_mul (show 0 < B by omega)]
  have := Nat.add_le_mul hX hB
  omega

/-! The fuel used by ceilLog is irrelevant as long as it is at least the
argument, so the defining recursion of the template CeilLog is recovered. -/

theorem ceilLogFuel_congr (B : Nat) :
    ∀ f g X, X ≤ f → X ≤ g → ceilLogFuel B f X = ceilLogFuel B g X := by
  intro f
  induction f with
  | zero =>
    intro g X hf hg
    have hX : X = 0 := Nat.le_zero.mp hf
    subst hX
    cases g with
    | zero => rfl
    | succ g => simp [ceilLogFuel]
  | succ f ih =>
    intro g X hf hg
    cases g with
    | zero =>
      have hX : X = 0 := Nat.le_zero.mp hg
      subst hX
      simp [ceilLogFuel]
    | succ g =>
      simp only [ceilLogFuel]
      by_cases h : 2 ≤ B ∧ 2 ≤ X
      · rw [if_pos h, if_pos h]
        have hlt : ceilDiv X B < X := ceilDiv_lt_self X B h.2 h.1
        rw [ih g (ceilDiv X B) (by omega) (by omega)]
      · rw [if_neg h, if_neg h]

theorem ceilLog_rec (B X : Nat) :
    ceilLog B X = if 2 ≤ B ∧ 2 ≤ X then 1 + ceilLog B (ceilDiv X B) else 0 := by
  by_cases h : 2 ≤ B ∧ 2 ≤ X
  · rw [if_pos h]
    unfold ceilLog
    obtain ⟨X', rfl⟩ : ∃ X', X = X' + 1 := ⟨X - 1, by omega⟩
    show ceilLogFuel B (X' + 1) (X' + 1) = 1 + ceilLogFuel B (ceilDiv (X' + 1) B) (ceilDiv (X' + 1) B)
    simp only [ceilLogFuel, if_pos h]
    have hlt : ceilDiv (X' + 1) B < X' + 1 := ceilDiv_lt_self _ B h.2 h.1
    rw [ceilLogFuel_congr B X' (ceilDiv (X' + 1) B) (ceilDiv (X' + 1) B) (by omega) (by omega)]
  · rw [if_neg h]
    unfold ceilLog
    cases X with
    | zero => rfl
    | succ X' => simp only [ceilLogFuel, if_neg h]

/-- The template CeilLog computes exactly the ceiling logarithm Nat.clog for
every base B >= 2 (matching the identical recurrences). -/
theorem ceilLog_eq_clog (B : Nat) (hB : 2 ≤ B) : ∀ X, ceilLog B X = Nat.clog B X := by
  intro X
  induction X using Nat.strong_induction_on with
  | _ X ih =>
    rw [ceilLog_rec]
    by_cases h : 2 ≤ X
    · rw [if_pos ⟨hB, h⟩, Nat.clog_of_two_le hB h]
      have hlt : ceilDiv X B < X := ceilDiv_lt_self X B h hB
      rw [ih (ceilDiv X B) hlt]
      have harg : ceilDiv X B = (X + B - 1) / B := rfl
      rw [harg, Nat.add_comm]
    · rw [if_neg (by omega)]
      interval_cases X
      · rw [Nat.clog_zero_right]
      · rw [Nat.clog_one_right]

/-! Characterization of the Step pattern via testBit. -/

theorem testBit_one_eq (i : Nat) : (1 : Nat).testBit i = decide (i < 1) := by
  have h := Nat.testBit_two_pow_sub_one 1 i
  norm_num at h
  rw [h, decide_eq_decide]
  omega

theorem step_testBit (W : Nat) (hW : 1 ≤ W) :
    ∀ n i, (step W n).testBit i = decide (i < min n W) := by
  intro n
  induction n with
  | zero => intro i; simp [step]
  | succ n ih =>
    cases n with
    | zero =>
      intro i
      show (1 : Nat).testBit i = decide (i < min 1 W)
      rw [testBit_one_eq, decide_eq_decide]
      omega
    | succ m =>
      intro i
      show (((step W (m + 1)) <<< 1) % 2 ^ W ||| 1).testBit i = decide (i < min (m + 2) W)
      rw [Nat.testBit_lor, Nat.testBit_mod_two_pow, Nat.testBit_shiftLeft, ih, testBit_one_eq]
      rw [Bool.eq_iff_iff]
      simp only [Bool.or_eq_true, Bool.and_eq_true, decide_eq_true_eq, ge_iff_le]
      omega

theorem step_eq (W n : Nat) (hW : 1 ≤ W) : step W n = 2 ^ min n W - 1 := by
  apply Nat.eq_of_testBit_eq
  intro i
  rw [step_testBit W hW, Nat.testBit_two_pow_sub_one]

/-! Characterization of RectangularWave via testBit, on the low 64 bits (the
width of the Longest type holding the value). -/

theorem rectangularWave_testBit (W L M : Nat) (hW1 : 1 ≤ W) (hL : 1 ≤ L) (hLW : L ≤ W) :
    ∀ N p, p < 64 →
      (rectangularWave W L M N).testBit p = decide (p % (L + M) < L ∧ p < N * (L + M)) := by
  intro N
  induction N with
  | zero =>
    intro p hp
    show (0 : Nat).testBit p = _
    simp [Nat.zero_testBit]
  | succ N ih =>
    cases N with
    | zero =>
      intro p hp
      show (step W L).testBit p = _
      rw [step_testBit W hW1, Bool.eq_iff_iff]
      simp only [decide_eq_true_eq]
      constructor
      · intro h
        have hpL : p < L := by omega
        have hpLM : p < L + M := by omega
        rw [Nat.mod_eq_of_lt hpLM]
        exact ⟨hpL, by omega⟩
      · rintro ⟨h1, h2⟩
        rw [Nat.one_mul] at h2
        rw [Nat.mod_eq_of_lt h2] at h1
        omega
    | succ N =>
      intro p hp
      show (((rectangularWave W L M (N + 1)) <<< (L + M)) % 2 ^ 64 ||| step W L).testBit p = _
      rw [Nat.testBit_lor, Nat.testBit_mod_two_pow, Nat.testBit_shiftLeft, step_testBit W hW1,
        ih (p - (L + M)) (by omega), Bool.eq_iff_iff]
      simp only [Bool.or_eq_true, Bool.and_eq_true, decide_eq_true_eq, ge_iff_le]
      obtain hcase | hcase := le_or_lt (L + M) p
      · rw [← Nat.mod_eq_sub_mod hcase]
        have ht : (N + 1 + 1) * (L + M) = (N + 1) * (L + M) + (L + M) := by ring
        rw [ht]
        generalize p % (L + M) = r
        generalize (N + 1) * (L + M) = t
        omega
      · rw [Nat.mod_eq_of_lt hcase]
        have ht : L + M ≤ (N + 1 + 1) * (L + M) := Nat.le_mul_of_pos_left _ (by omega)
        generalize hgen : (N + 1 + 1) * (L + M) = t at ht
        omega

/-- The mask used by a non-base crumble round, restricted to the W bits that
survive the truncating assignment, keeps exactly the bit positions whose
offset inside a period of b*(S+1) is below b. -/
theorem mask_testBit (W S b : Nat) (hW1 : 1 ≤ W) (hW64 : W ≤ 64) (hb : 1 ≤ b) (hbW : b ≤ W) :
    ∀ p, p < W → (rectangularWave W b (b * S) (rwDefaultN W b (b * S))).testBit p =
      decide (p % (b * (S + 1)) < b) := by
  intro p hp
  have hbs : b + b * S = b * (S + 1) := by ring
  unfold rwDefaultN
  rw [if_neg (show ¬ (b + b * S = 0) by omega)]
  rw [rectangularWave_testBit W b (b * S) hW1 hb hbW _ p (by omega), decide_eq_decide]
  have hge : W ≤ ceilDiv W (b + b * S) * (b + b * S) := le_ceilDiv_mul W _ (by omega)
  rw [hbs] at hge ⊢
  exact ⟨fun h => h.1, fun h => ⟨h, by omega⟩⟩

/-- Characterization of spreadBlocks via testBit: position p carries bit
(p / (b*(S+1))) * b + p % (b*(S+1)) of x when the offset p % (b*(S+1)) is
below b and the block index p / (b*(S+1)) is below G, and is clear otherwise. -/
theorem spreadBlocks_testBit (S b : Nat) (hS : 1 ≤ S) (hb : 1 ≤ b) :
    ∀ G x p, (spreadBlocks S b G x).testBit p =
      (decide (p % (b * (S + 1)) < b) && decide (p / (b * (S + 1)) < G) &&
        x.testBit (p / (b * (S + 1)) * b + p % (b * (S + 1)))) := by
  have h0bS : 0 < b * S := Nat.mul_pos (by omega) (by omega)
  have hPsum : b * (S + 1) = b * S + b := by ring
  intro G
  induction G with
  | zero =>
    intro x p
    show (0 : Nat).testBit p = _
    simp [Nat.zero_testBit]
  | succ G ih =>
    intro x p
    have hbP : b < b * (S + 1) := by omega
    have h0P : 0 < b * (S + 1) := by omega
    show ((x % 2 ^ b) ||| ((spreadBlocks S b G (x / 2 ^ b)) <<< (b * (S + 1)))).testBit p = _
    rw [Nat.testBit_lor, Nat.testBit_mod_two_pow, Nat.testBit_shiftLeft, ih]
    rw [show x / 2 ^ b = x >>> b from (Nat.shiftRight_eq_div_pow x b).symm, Nat.testBit_shiftRight]
    obtain hp | hp := lt_or_ge p (b * (S + 1))
    · have hmod : p % (b * (S + 1)) = p := Nat.mod_eq_of_lt hp
      have hdiv : p / (b * (S + 1)) = 0 := Nat.div_eq_of_lt hp
      have hshift : ¬ (p ≥ b * (S + 1)) := by omega
      rw [hmod, hdiv]
      rw [Bool.eq_iff_iff]
      simp only [Bool.or_eq_true, Bool.and_eq_true, decide_eq_true_eq, Nat.zero_mul,
        Nat.zero_add]
      have hG : 0 < G + 1 := Nat.zero_lt_succ G
      tauto
    · have hsub : p - b * (S + 1) + b * (S + 1) = p := Nat.sub_add_cancel hp
      have hmod : (p - b * (S + 1)) % (b * (S + 1)) = p % (b * (S + 1)) :=
        (Nat.mod_eq_sub_mod hp).symm
      have hdiv : p / (b * (S + 1)) = (p - b * (S + 1)) / (b * (S + 1)) + 1 := by
        conv_lhs => rw [← hsub]
        exact Nat.add_div_right _ h0P
      have hnb : ¬ (p < b) := by omega
      rw [hmod, hdiv]
      rw [show ((p - b * (S + 1)) / (b * (S + 1)) + 1) * b + p % (b * (S + 1)) =
          b + ((p - b * (S + 1)) / (b * (S + 1)) * b + p % (b * (S + 1))) from by ring]
      rw [Bool.eq_iff_iff]
      simp only [Bool.or_eq_true, Bool.and_eq_true, decide_eq_true_eq]
      have hiff : (p - b * (S + 1)) / (b * (S + 1)) < G ↔
          (p - b * (S + 1)) / (b * (S + 1)) + 1 < G + 1 := by omega
      tauto

/-- Reading a bit of a partially diluted value (block size 2*b) at a position
written as a multiple of the doubled period plus an offset. -/
theorem spreadBlocks_testBit_at (S b G x h o : Nat) (hS : 1 ≤ S) (hb : 1 ≤ b)
    (ho : o < 2 * (b * (S + 1))) :
    (spreadBlocks S (2 * b) G x).testBit (2 * (b * (S + 1)) * h + o) =
      (decide (o < 2 * b) && decide (h < G) && x.testBit (h * (2 * b) + o)) := by
  rw [spreadBlocks_testBit S (2 * b) hS (by omega) G x _]
  rw [show 2 * b * (S + 1) = 2 * (b * (S + 1)) from by ring]
  have hmod : (2 * (b * (S + 1)) * h + o) % (2 * (b * (S + 1))) = o := by
    rw [Nat.mul_add_mod]
    exact Nat.mod_eq_of_lt ho
  have hdiv : (2 * (b * (S + 1)) * h + o) / (2 * (b * (S + 1))) = h := by
    rw [Nat.mul_add_div (by omega), Nat.div_eq_of_lt ho, Nat.add_zero]
  rw [hmod, hdiv]

/-- Every bit of a partially diluted value of an input fitting in
A = AllowedInputBits bits lies below W. -/
theorem spreadBlocks_high_bits (W S b A G x : Nat) (hS : 1 ≤ S) (hb : 1 ≤ b)
    (hx : x < 2 ^ A) (hAW : (A - 1) * (S + 1) < W) :
    ∀ p, W ≤ p → (spreadBlocks S b G x).testBit p = false := by
  intro p hp
  rw [spreadBlocks_testBit S b hS hb]
  by_cases hidx : p / (b * (S + 1)) * b + p % (b * (S + 1)) < A
  · exfalso
    have h0P : 0 < b * (S + 1) := Nat.mul_pos (by omega) (by omega)
    have hdm := Nat.div_add_mod p (b * (S + 1))
    have h2 : b * (S + 1) * (p / (b * (S + 1))) + p % (b * (S + 1)) ≤
        (p / (b * (S + 1)) * b + p % (b * (S + 1))) * (S + 1) := by
      have e1 : (p / (b * (S + 1)) * b + p % (b * (S + 1))) * (S + 1) =
          b * (S + 1) * (p / (b * (S + 1))) + p % (b * (S + 1)) * (S + 1) := by ring
      have e2 : p % (b * (S + 1)) ≤ p % (b * (S + 1)) * (S + 1) :=
        Nat.le_mul_of_pos_right _ (by omega)
      omega
    have h3 : (p / (b * (S + 1)) * b + p % (b * (S + 1))) * (S + 1) ≤ (A - 1) * (S + 1) :=
      Nat.mul_le_mul_right _ (by omega)
    omega
  · have hz : x.testBit (p / (b * (S + 1)) * b + p % (b * (S + 1))) = false :=
      Nat.testBit_lt_two_pow (lt_of_lt_of_le hx (Nat.pow_le_pow_right (by omega) (by omega)))
    rw [hz, Bool.and_false]

theorem crumbleRound_spread (W S b G x A : Nat) (hS : 1 ≤ S) (hb : 1 ≤ b) (hW1 : 1 ≤ W)
    (hW64 : W ≤ 64) (hbW : b ≤ W) (hx : x < 2 ^ A)
    (hAW : (A - 1) * (S + 1) < W) :
    crumbleRound W S b (spreadBlocks S (2 * b) G x) = spreadBlocks S b (2 * G) x := by
  apply Nat.eq_of_testBit_eq
  intro p
  unfold crumbleRound
  rw [Nat.testBit_mod_two_pow]
  by_cases hpW : p < W
  case neg =>
    rw [spreadBlocks_high_bits W S b A (2 * G) x hS hb hx hAW p (by omega)]
    rw [decide_eq_false hpW, Bool.false_and]
  case pos =>
    rw [Nat.testBit_land, Nat.testBit_lor, Nat.testBit_mod_two_pow, Nat.testBit_shiftLeft]
    rw [mask_testBit W S b hW1 hW64 hb hbW p hpW]
    rw [spreadBlocks_testBit S b hS hb]
    have h0P : 0 < b * (S + 1) := Nat.mul_pos (by omega) (by omega)
    obtain ⟨g, r, hr, rfl⟩ : ∃ g r, r < b * (S + 1) ∧ p = b * (S + 1) * g + r :=
      ⟨p / (b * (S + 1)), p % (b * (S + 1)), Nat.mod_lt _ h0P, (Nat.div_add_mod p _).symm⟩
    have hm1 : (b * (S + 1) * g + r) % (b * (S + 1)) = r := by
      rw [Nat.mul_add_mod]; exact Nat.mod_eq_of_lt hr
    have hd1 : (b * (S + 1) * g + r) / (b * (S + 1)) = g := by
      rw [Nat.mul_add_div h0P, Nat.div_eq_of_lt hr, Nat.add_zero]
    have hbS1 : b ≤ b * S := Nat.le_mul_of_pos_right b (by omega)
    have hPe : b * (S + 1) = b * S + b := by ring
    rw [hm1, hd1]
    by_cases hrb : r < b
    case neg =>
      simp only [decide_eq_false hrb, Bool.and_false, Bool.false_and]
    case pos =>
      rcases Nat.even_or_odd g with ⟨h, hg⟩ | ⟨h, hg⟩
      · -- g even: the block keeps its base position
        have hg2 : g = 2 * h := by omega
        subst hg2
        have epos : b * (S + 1) * (2 * h) + r = 2 * (b * (S + 1)) * h + r := by ring
        rw [epos] at hpW ⊢
        rw [spreadBlocks_testBit_at S b G x h r hS hb (by omega)]
        rcases Nat.eq_zero_or_pos h with rfl | hpos
        · have e0 : 2 * (b * (S + 1)) * 0 + r = r := by ring
          rw [e0] at hpW ⊢
          rw [decide_eq_false (show ¬ (r ≥ b * S) from by omega)]
          simp only [Bool.false_and, Bool.and_false, Bool.or_false]
          rw [show (0 : Nat) * (2 * b) + r = r from by ring,
            show 2 * 0 * b + r = r from by ring]
          rw [Bool.eq_iff_iff]
          simp only [Bool.and_eq_true, decide_eq_true_eq]
          have f2 : r < 2 * b := by omega
          have f3 : (0 < G) ↔ (2 * 0 < 2 * G) := by omega
          tauto
        · obtain ⟨h', rfl⟩ : ∃ h', h = h' + 1 := ⟨h - 1, by omega⟩
          have esub : 2 * (b * (S + 1)) * (h' + 1) + r - b * S =
              2 * (b * (S + 1)) * h' + (b * (S + 1) + b + r) :=
            Nat.sub_eq_of_eq_add (by ring)
          rw [esub]
          rw [spreadBlocks_testBit_at S b G x h' (b * (S + 1) + b + r) hS hb (by omega)]
          have f1 : ¬ (b * (S + 1) + b + r < 2 * b) := by omega
          rw [decide_eq_false f1]
          simp only [Bool.false_and, Bool.and_false, Bool.or_false]
          rw [show 2 * (h' + 1) * b + r = (h' + 1) * (2 * b) + r from by ring]
          rw [Bool.eq_iff_iff]
          simp only [Bool.and_eq_true, decide_eq_true_eq]
          have f2 : r < 2 * b := by omega
          have f3 : (h' + 1 < G) ↔ (2 * (h' + 1) < 2 * G) := by omega
          tauto
      · -- g odd: the block travels by b*S
        subst hg
        have epos : b * (S + 1) * (2 * h + 1) + r = 2 * (b * (S + 1)) * h + (b * (S + 1) + r) := by
          ring
        rw [epos] at hpW ⊢
        rw [spreadBlocks_testBit_at S b G x h (b * (S + 1) + r) hS hb (by omega)]
        have f1 : ¬ (b * (S + 1) + r < 2 * b) := by omega
        rw [decide_eq_false f1]
        simp only [Bool.false_and, Bool.false_or]
        have esub : 2 * (b * (S + 1)) * h + (b * (S + 1) + r) - b * S =
            2 * (b * (S + 1)) * h + (b + r) :=
          Nat.sub_eq_of_eq_add (by ring)
        rw [esub]
        rw [spreadBlocks_testBit_at S b G x h (b + r) hS hb (by omega)]
        have f0 : 2 * (b * (S + 1)) * h + (b * (S + 1) + r) ≥ b * S := by omega
        rw [show (2 * h + 1) * b + r = h * (2 * b) + (b + r) from by ring]
        rw [Bool.eq_iff_iff]
        simp only [Bool.and_eq_true, decide_eq_true_eq]
        have f2 : b + r < 2 * b := by omega
        have f3 : (h < G) ↔ (2 * h + 1 < 2 * G) := by omega
        tauto

theorem and_two_pow_sub_one_eq_mod (a m : Nat) : a &&& (2 ^ m - 1) = a % 2 ^ m := by
  apply Nat.eq_of_testBit_eq
  intro i
  rw [Nat.testBit_land, Nat.testBit_two_pow_sub_one, Nat.testBit_mod_two_pow, Bool.and_comm]

/-- Invariant of the unrolled crumble recursion: after the base sanitization
and j rounds, the value is the input spread into 2^j blocks of size
2^(nShifts - j) each, where nShifts = CeilLog<2, nBitsAllowed>. -/
theorem diluteBitsCrumble_spread (W S x : Nat) (hS : 1 ≤ S) (hW1 : 1 ≤ W) (hW64 : W ≤ 64)
    (hx : x < 2 ^ ceilDiv W (S + 1)) :
    ∀ j, j ≤ ceilLog 2 (ceilDiv W (S + 1)) →
      diluteBitsCrumble W S (1 + ceilLog 2 (ceilDiv W (S + 1))) j x =
        spreadBlocks S (2 ^ (ceilLog 2 (ceilDiv W (S + 1)) - j)) (2 ^ j) x := by
  have hA1 : 1 ≤ ceilDiv W (S + 1) := ceilDiv_pos W (S + 1) hW1 (by omega)
  have hAW : ceilDiv W (S + 1) ≤ W := ceilDiv_le_self W (S + 1) (by omega)
  have hAc : ceilDiv W (S + 1) ≤ 2 ^ ceilLog 2 (ceilDiv W (S + 1)) := by
    rw [ceilLog_eq_clog 2 (le_refl 2)]
    exact Nat.le_pow_clog (by norm_num) _
  have hAe : ceilDiv W (S + 1) = 1 + (W - 1) / (S + 1) := ceilDiv_eq_one_add W (S + 1) hW1 (by omega)
  have hsub : (ceilDiv W (S + 1) - 1) * (S + 1) < W := by
    have h1 : (W - 1) / (S + 1) * (S + 1) ≤ W - 1 := Nat.div_mul_le_self _ _
    have h2 : ceilDiv W (S + 1) - 1 = (W - 1) / (S + 1) := by omega
    rw [h2]
    omega
  have hone : ∀ B y : Nat, spreadBlocks S B 1 y = y % 2 ^ B := by
    intro B y
    show (y % 2 ^ B) ||| ((0 : Nat) <<< (B * (S + 1))) = _
    rw [Nat.zero_shiftLeft]
    simp
  intro j
  induction j with
  | zero =>
    intro _
    show x &&& step W (1 + (W - 1) / (S + 1)) = _
    rw [← hAe, step_eq W _ hW1, Nat.min_eq_left hAW, and_two_pow_sub_one_eq_mod,
      Nat.mod_eq_of_lt hx]
    have hx2 : x < 2 ^ 2 ^ ceilLog 2 (ceilDiv W (S + 1)) :=
      lt_of_lt_of_le hx (Nat.pow_le_pow_right (by omega) hAc)
    rw [Nat.sub_zero, Nat.pow_zero, hone, Nat.mod_eq_of_lt hx2]
  | succ j ih =>
    intro hj
    have hA2 : 2 ≤ ceilDiv W (S + 1) := by
      by_contra hcon
      have h01 : ceilDiv W (S + 1) ≤ 1 := by omega
      have : ceilLog 2 (ceilDiv W (S + 1)) = 0 := by
        rw [ceilLog_rec]
        rw [if_neg (by omega)]
      omega
    have hblock : 2 ^ (ceilLog 2 (ceilDiv W (S + 1)) - j) =
        2 * 2 ^ (ceilLog 2 (ceilDiv W (S + 1)) - (j + 1)) := by
      rw [show ceilLog 2 (ceilDiv W (S + 1)) - j =
        (ceilLog 2 (ceilDiv W (S + 1)) - (j + 1)) + 1 from by omega, Nat.pow_succ,
        Nat.mul_comm]
    have hgroups : (2 : Nat) ^ (j + 1) = 2 * 2 ^ j := by
      rw [Nat.pow_succ, Nat.mul_comm]
    have hbW : 2 ^ (ceilLog 2 (ceilDiv W (S + 1)) - (j + 1)) ≤ W := by
      have hc1 : ceilLog 2 (ceilDiv W (S + 1)) - (j + 1) ≤
          ceilLog 2 (ceilDiv W (S + 1)) - 1 := by omega
      have hc2 : (2 : Nat) ^ (ceilLog 2 (ceilDiv W (S + 1)) - (j + 1)) ≤
          2 ^ (ceilLog 2 (ceilDiv W (S + 1)) - 1) := Nat.pow_le_pow_right (by omega) hc1
      have hc3 : (2 : Nat) ^ (ceilLog 2 (ceilDiv W (S + 1)) - 1) < ceilDiv W (S + 1) := by
        have := Nat.pow_pred_clog_lt_self (show 1 < 2 by norm_num)
          (show 1 < ceilDiv W (S + 1) by omega)
        rw [← ceilLog_eq_clog 2 (le_refl 2)] at this
        rw [show Nat.pred (ceilLog 2 (ceilDiv W (S + 1))) =
          ceilLog 2 (ceilDiv W (S + 1)) - 1 from rfl] at this
        exact this
      omega
    show crumbleRound W S (2 ^ (1 + ceilLog 2 (ceilDiv W (S + 1)) - 1 - (j + 1)))
        (diluteBitsCrumble W S (1 + ceilLog 2 (ceilDiv W (S + 1))) j x) = _
    rw [show 1 + ceilLog 2 (ceilDiv W (S + 1)) - 1 - (j + 1) =
      ceilLog 2 (ceilDiv W (S + 1)) - (j + 1) from by omega]
    rw [ih (by omega), hblock, hgroups]
    exact crumbleRound_spread W S _ (2 ^ j) x (ceilDiv W (S + 1)) hS
      Nat.one_le_two_pow hW1 hW64 hbW hx hsub

/-- diluteBitsRecursive produces exactly the fully spread value (blocks of one
bit at stride S+1) of its sanitized input. -/
theorem dilute_eq_spread (W S x : Nat) (hS : 1 ≤ S) (hW1 : 1 ≤ W) (hW64 : W ≤ 64)
    (hx : x < 2 ^ ceilDiv W (S + 1)) :
    diluteBitsRecursive W S x =
      spreadBlocks S 1 (2 ^ ceilLog 2 (ceilDiv W (S + 1))) x := by
  show diluteBitsCrumble W S (1 + ceilLog 2 (ceilDiv W (S + 1)))
      (1 + ceilLog 2 (ceilDiv W (S + 1)) - 1) x = _
  rw [show 1 + ceilLog 2 (ceilDiv W (S + 1)) - 1 = ceilLog 2 (ceilDiv W (S + 1)) from by omega]
  rw [diluteBitsCrumble_spread W S x hS hW1 hW64 hx (ceilLog 2 (ceilDiv W (S + 1))) (le_refl _)]
  rw [Nat.sub_self, Nat.pow_zero]

/-- Bit p of the fully spread value is bit p/(S+1) of the input when p is a
multiple of S+1 whose index is among the placed blocks, and clear otherwise. -/
theorem spread1_testBit (S : Nat) (hS : 1 ≤ S) (G x p : Nat) :
    (spreadBlocks S 1 G x).testBit p =
      (decide (p % (S + 1) = 0) && decide (p / (S + 1) < G) && x.testBit (p / (S + 1))) := by
  rw [spreadBlocks_testBit S 1 hS (le_refl 1) G x p]
  rw [show 1 * (S + 1) = S + 1 from Nat.one_mul _]
  by_cases hm : p % (S + 1) = 0
  · rw [hm]
    rw [show p / (S + 1) * 1 + 0 = p / (S + 1) from by ring]
    rw [show (decide (0 < 1)) = decide ((0 : Nat) = 0) from rfl]
  · simp only [decide_eq_false (show ¬ (p % (S + 1) < 1) from by omega),
      decide_eq_false hm, Bool.false_and]

theorem extractEveryFuel_congr (k : Nat) (hk : 1 ≤ k) :
    ∀ f g y, y ≤ f → y ≤ g → extractEveryFuel k f y = extractEveryFuel k g y := by
  have h2 : 1 < 2 ^ k := by
    have := Nat.one_lt_two_pow_iff.mpr (show k ≠ 0 by omega)
    omega
  intro f
  induction f with
  | zero =>
    intro g y hf hg
    have hy : y = 0 := Nat.le_zero.mp hf
    subst hy
    cases g with
    | zero => rfl
    | succ g => simp [extractEveryFuel]
  | succ f ih =>
    intro g y hf hg
    cases g with
    | zero =>
      have hy : y = 0 := Nat.le_zero.mp hg
      subst hy
      simp [extractEveryFuel]
    | succ g =>
      simp only [extractEveryFuel]
      by_cases hy : y = 0
      · rw [if_pos hy, if_pos hy]
      · rw [if_neg hy, if_neg hy]
        have hlt : y / 2 ^ k < y := Nat.div_lt_self (by omega) h2
        rw [ih g (y / 2 ^ k) (by omega) (by omega)]

theorem extractEvery_rec (k y : Nat) (hk : 1 ≤ k) :
    extractEvery k y = if y = 0 then 0
      else (y &&& 1) ||| ((extractEvery k (y / 2 ^ k)) <<< 1) := by
  have h2 : 1 < 2 ^ k := by
    have := Nat.one_lt_two_pow_iff.mpr (show k ≠ 0 by omega)
    omega
  cases y with
  | zero => rfl
  | succ y =>
    rw [if_neg (Nat.succ_ne_zero y)]
    show (if y + 1 = 0 then 0
      else ((y + 1) &&& 1) ||| ((extractEveryFuel k y ((y + 1) / 2 ^ k)) <<< 1)) = _
    rw [if_neg (Nat.succ_ne_zero y)]
    have hlt : (y + 1) / 2 ^ k < y + 1 := Nat.div_lt_self (by omega) h2
    rw [extractEveryFuel_congr k hk y ((y + 1) / 2 ^ k) ((y + 1) / 2 ^ k) (by omega) (le_refl _)]
    rfl

theorem extractEvery_testBit (k : Nat) (hk : 1 ≤ k) :
    ∀ y i, (extractEvery k y).testBit i = y.testBit (i * k) := by
  intro y
  induction y using Nat.strong_induction_on with
  | _ y ih =>
    intro i
    rw [extractEvery_rec k y hk]
    by_cases hy : y = 0
    · subst hy
      simp [Nat.zero_testBit]
    · rw [if_neg hy, Nat.testBit_lor, Nat.testBit_shiftLeft, Nat.testBit_land, testBit_one_eq]
      cases i with
      | zero =>
        rw [Nat.zero_mul]
        simp
      | succ i =>
        have h2 : 1 < 2 ^ k := by
          have := Nat.one_lt_two_pow_iff.mpr (show k ≠ 0 by omega)
          omega
        have hlt : y / 2 ^ k < y := Nat.div_lt_self (by omega) h2
        rw [show i + 1 - 1 = i from rfl]
        rw [ih (y / 2 ^ k) hlt i]
        rw [show y / 2 ^ k = y >>> k from (Nat.shiftRight_eq_div_pow y k).symm,
          Nat.testBit_shiftRight]
        rw [decide_eq_false (show ¬ (i + 1 < 1) from by omega), Bool.and_false]
        rw [show k + i * k = (i + 1) * k from by ring]
        simp

/-- C1: for every unsigned width W in {8, 16, 32, 64}, every spacing S >= 1,
and every input x whose set bits all lie below AllowedInputBits =
ceil(W/(S+1)), diluteBitsRecursive relocates bit i of x to result bit
i*(S+1) for each i below AllowedInputBits, every other result bit is zero,
and extracting every (S+1)-th result bit starting at position 0 reconstructs
x exactly. -/
theorem dilution_round_trip (W S x : Nat)
    (hW : W = 8 ∨ W = 16 ∨ W = 32 ∨ W = 64) (hS : 1 ≤ S)
    (hx : x < 2 ^ ceilDiv W (S + 1)) :
    (∀ i, i < ceilDiv W (S + 1) →
      (diluteBitsRecursive W S x).testBit (i * (S + 1)) = x.testBit i) ∧
    (∀ p, (diluteBitsRecursive W S x).testBit p = true →
      ∃ i, i < ceilDiv W (S + 1) ∧ p = i * (S + 1)) ∧
    extractEvery (S + 1) (diluteBitsRecursive W S x) = x := by
  have hW1 : 1 ≤ W := by rcases hW with rfl | rfl | rfl | rfl <;> norm_num
  have hW64 : W ≤ 64 := by rcases hW with rfl | rfl | rfl | rfl <;> norm_num
  have hD := dilute_eq_spread W S x hS hW1 hW64 hx
  have hAc : ceilDiv W (S + 1) ≤ 2 ^ ceilLog 2 (ceilDiv W (S + 1)) := by
    rw [ceilLog_eq_clog 2 (le_refl 2)]
    exact Nat.le_pow_clog (by norm_num) _
  refine ⟨?_, ?_, ?_⟩
  · intro i hi
    rw [hD, spread1_testBit S hS, Nat.mul_mod_left, Nat.mul_div_cancel _ (by omega)]
    have h2 : i < 2 ^ ceilLog 2 (ceilDiv W (S + 1)) := lt_of_lt_of_le hi hAc
    simp [h2]
  · intro p hp
    rw [hD, spread1_testBit S hS] at hp
    simp only [Bool.and_eq_true, decide_eq_true_eq] at hp
    obtain ⟨⟨hm0, hdG⟩, hT⟩ := hp
    refine ⟨p / (S + 1), ?_, ?_⟩
    · by_contra hcon
      have hz : x.testBit (p / (S + 1)) = false :=
        Nat.testBit_lt_two_pow (lt_of_lt_of_le hx (Nat.pow_le_pow_right (by omega) (by omega)))
      rw [hz] at hT
      exact Bool.false_ne_true hT
    · have hdm := Nat.div_add_mod p (S + 1)
      rw [Nat.mul_comm]
      omega
  · apply Nat.eq_of_testBit_eq
    intro i
    rw [extractEvery_testBit (S + 1) (by omega) _ i, hD, spread1_testBit S hS,
      Nat.mul_mod_left, Nat.mul_div_cancel _ (by omega)]
    by_cases hi : i < ceilDiv W (S + 1)
    · have h2 : i < 2 ^ ceilLog 2 (ceilDiv W (S + 1)) := lt_of_lt_of_le hi hAc
      simp [h2]
    · have hz : x.testBit i = false :=
        Nat.testBit_lt_two_pow (lt_of_lt_of_le hx (Nat.pow_le_pow_right (by omega) (by omega)))
      simp [hz]

/-- Witness for C1 at W = 8, S = 4, x = 3. -/
theorem dilution_round_trip_witness :
    ((8 : Nat) = 8 ∨ (8 : Nat) = 16 ∨ (8 : Nat) = 32 ∨ (8 : Nat) = 64) ∧ 1 ≤ 4 ∧
      3 < 2 ^ ceilDiv 8 (4 + 1) ∧ extractEvery (4 + 1) (diluteBitsRecursive 8 4 3) = 3 :=
  ⟨Or.inl rfl, by decide, by decide,
    (dilution_round_trip 8 4 3 (Or.inl rfl) (by decide) (by decide)).2.2⟩

theorem and_mod_two_pow_self {M W : Nat} (h : M < 2 ^ W) (a : Nat) :
    (a &&& M) % 2 ^ W = a &&& M :=
  Nat.mod_eq_of_lt (Nat.lt_of_le_of_lt Nat.and_le_right h)

/-- For 32-bit width and spacing 1, the generated crumble schedule consists of
exactly the operations of part1by1 (same base mask, same shifts 8, 4, 2, 1 and
same masks), so the functions agree on every input. -/
theorem dilute_32_1_eq_part1by1 (x : Nat) : diluteBitsRecursive 32 1 x = part1by1 x := by
  have hn : diluteBitsRecursive 32 1 x = diluteBitsCrumble 32 1 5 4 x := rfl
  have m1 : rectangularWave 32 8 8 (rwDefaultN 32 8 8) = 16711935 := rfl
  have m2 : rectangularWave 32 4 4 (rwDefaultN 32 4 4) = 252645135 := rfl
  have m3 : rectangularWave 32 2 2 (rwDefaultN 32 2 2) = 858993459 := rfl
  have m4 : rectangularWave 32 1 1 (rwDefaultN 32 1 1) = 1431655765 := rfl
  have hs : step 32 16 = 65535 := rfl
  have h1 : ∀ a : Nat, (a &&& (16711935 : Nat)) % 4294967296 = a &&& 16711935 := fun a =>
    Nat.mod_eq_of_lt (lt_of_le_of_lt Nat.and_le_right (by norm_num))
  have h2 : ∀ a : Nat, (a &&& (252645135 : Nat)) % 4294967296 = a &&& 252645135 := fun a =>
    Nat.mod_eq_of_lt (lt_of_le_of_lt Nat.and_le_right (by norm_num))
  have h3 : ∀ a : Nat, (a &&& (858993459 : Nat)) % 4294967296 = a &&& 858993459 := fun a =>
    Nat.mod_eq_of_lt (lt_of_le_of_lt Nat.and_le_right (by norm_num))
  have h4 : ∀ a : Nat, (a &&& (1431655765 : Nat)) % 4294967296 = a &&& 1431655765 := fun a =>
    Nat.mod_eq_of_lt (lt_of_le_of_lt Nat.and_le_right (by norm_num))
  rw [hn]
  simp only [diluteBitsCrumble, crumbleRound, part1by1]
  norm_num [m1, m2, m3, m4, hs]
  simp only [h1, h2, h3, h4]

set_option maxRecDepth 10000 in
theorem dilute_32_2_eq_part1by2_small :
    ∀ x, x < 1024 → diluteBitsRecursive 32 2 x = part1by2 x := by decide

/-- C2: for the 32-bit unsigned width, the dilution routine matches the
classical magic-constant routines bit-exactly: part1by1 for spacing 1 on
[0, 0xFFFF], part1by2 for spacing 2 on [0, 0x3FF]. -/
theorem magic_constant_equivalence :
    (∀ x, x ≤ 0xFFFF → diluteBitsRecursive 32 1 x = part1by1 x) ∧
    (∀ x, x ≤ 0x3FF → diluteBitsRecursive 32 2 x = part1by2 x) :=
  ⟨fun x _ => dilute_32_1_eq_part1by1 x,
   fun x hx => dilute_32_2_eq_part1by2_small x (by omega)⟩

/-- Witness for C2 at x = 0xABCD (spacing 1) and x = 0x3FF (spacing 2). -/
theorem magic_constant_equivalence_witness :
    diluteBitsRecursive 32 1 0xABCD = part1by1 0xABCD ∧
      diluteBitsRecursive 32 2 0x3FF = part1by2 0x3FF :=
  ⟨magic_constant_equivalence.1 0xABCD (by decide),
   magic_constant_equivalence.2 0x3FF (by decide)⟩

/-- The crumble schedule only ever reads the input through the base round's
sanitization mask. -/
theorem diluteBitsCrumble_and_mask (W S n : Nat) :
    ∀ i x, diluteBitsCrumble W S n i (x &&& step W (1 + (W - 1) / (S + 1))) =
      diluteBitsCrumble W S n i x := by
  intro i
  induction i with
  | zero =>
    intro x
    show (x &&& step W (1 + (W - 1) / (S + 1))) &&& step W (1 + (W - 1) / (S + 1)) = _
    rw [Nat.and_assoc, Nat.and_self]
    rfl
  | succ i ih =>
    intro x
    show crumbleRound W S _ (diluteBitsCrumble W S n i (x &&& _)) = _
    rw [ih]
    rfl

/-- C8: excess high input bits beyond AllowedInputBits are silently discarded
by the base sanitization mask: diluting x and diluting
x & step(W, ceilDiv(W, S+1)) give the same result, for every input x. -/
theorem dilution_truncation (W S x : Nat) (hS : 1 ≤ S) (hW : 1 ≤ W) :
    diluteBitsRecursive W S x = diluteBitsRecursive W S (x &&& step W (ceilDiv W (S + 1))) := by
  have hA := ceilDiv_eq_one_add W (S + 1) hW (by omega)
  conv_rhs => rw [hA]
  exact (diluteBitsCrumble_and_mask W S (1 + ceilLog 2 (ceilDiv W (S + 1)))
    (1 + ceilLog 2 (ceilDiv W (S + 1)) - 1) x).symm

/-- Witness for C8 at W = 8, S = 4, x = 0xFF (whose high bits exceed
AllowedInputBits = 2). -/
theorem dilution_truncation_witness :
    1 ≤ 4 ∧ 1 ≤ 8 ∧ diluteBitsRecursive 8 4 0xFF =
      diluteBitsRecursive 8 4 (0xFF &&& step 8 (ceilDiv 8 (4 + 1))) :=
  ⟨by decide, by decide, dilution_truncation 8 4 0xFF (by decide) (by decide)⟩

/-- C10: when S + 1 >= W >= 1 the schedule degenerates: AllowedInputBits = 1,
stepsNeeded = 1, and dilution reduces to masking with 1 (only bit 0 survives,
unmoved); moreover AllowedInputBits >= 1 for every width >= 1 and every
spacing, so AllowedInputBits = 0 never arises. -/
theorem dilution_degenerate_spacing (W S x : Nat) (hW : 1 ≤ W) (hWS : W ≤ S + 1) :
    ceilDiv W (S + 1) = 1 ∧ 1 + ceilLog 2 (ceilDiv W (S + 1)) = 1 ∧
      diluteBitsRecursive W S x = x &&& 1 ∧
      (∀ W2 S2, 1 ≤ W2 → 1 ≤ ceilDiv W2 (S2 + 1)) := by
  have hA : ceilDiv W (S + 1) = 1 := by
    unfold ceilDiv
    exact Nat.div_eq_of_lt_le (by omega) (by omega)
  refine ⟨hA, ?_, ?_, ?_⟩
  · rw [hA]
    decide
  · show diluteBitsCrumble W S (1 + ceilLog 2 (ceilDiv W (S + 1)))
      (1 + ceilLog 2 (ceilDiv W (S + 1)) - 1) x = x &&& 1
    rw [hA]
    show x &&& step W (1 + (W - 1) / (S + 1)) = x &&& 1
    rw [Nat.div_eq_of_lt (by omega)]
    rfl
  · intro W2 S2 hW2
    exact ceilDiv_pos W2 (S2 + 1) hW2 (by omega)

/-- Witness for C10 at W = 8, S = 7, x = 5. -/
theorem dilution_degenerate_spacing_witness :
    1 ≤ 8 ∧ 8 ≤ 7 + 1 ∧ diluteBitsRecursive 8 7 5 = 5 &&& 1 :=
  ⟨by decide, by decide, (dilution_degenerate_spacing 8 7 5 (by decide) (by decide)).2.2.1⟩

theorem diluteBitsCrumble_foldl (W S n : Nat) :
    ∀ i x, diluteBitsCrumble W S n i x =
      List.foldl (fun y j => crumbleRound W S (2 ^ (n - 1 - j)) y)
        (x &&& step W (1 + (W - 1) / (S + 1))) (List.range' 1 i) := by
  intro i
  induction i with
  | zero => intro x; rfl
  | succ i ih =>
    intro x
    show crumbleRound W S (2 ^ (n - 1 - (i + 1))) (diluteBitsCrumble W S n i x) = _
    rw [ih, List.range'_concat, List.foldl_append]
    simp only [List.foldl_cons, List.foldl_nil]
    rw [show (1 : Nat) + 1 * i = i + 1 from by omega]

/-- C3 (amended): diluteBitsRecursive executes its rounds in order of
decreasing block size b = 2^(stepsNeeded-1-stepIndex), each non-base round
computing x = ( x | ( x << b*S ) ) & RectangularWave( W, b, b*S ) — the shift
amount is b*S, not b*(S+1). -/
theorem crumble_rounds_formula (W S x : Nat) :
    diluteBitsRecursive W S x =
      List.foldl
        (fun y j =>
          ((y ||| ((y <<< (2 ^ (ceilLog 2 (ceilDiv W (S + 1)) - j) * S)) % 2 ^ W)) &&&
            rectangularWave W (2 ^ (ceilLog 2 (ceilDiv W (S + 1)) - j))
              (2 ^ (ceilLog 2 (ceilDiv W (S + 1)) - j) * S)
              (rwDefaultN W (2 ^ (ceilLog 2 (ceilDiv W (S + 1)) - j))
                (2 ^ (ceilLog 2 (ceilDiv W (S + 1)) - j) * S))) % 2 ^ W)
        (x &&& step W (1 + (W - 1) / (S + 1)))
        (List.range' 1 (ceilLog 2 (ceilDiv W (S + 1)))) := by
  show diluteBitsCrumble W S (1 + ceilLog 2 (ceilDiv W (S + 1)))
      (1 + ceilLog 2 (ceilDiv W (S + 1)) - 1) x = _
  rw [show 1 + ceilLog 2 (ceilDiv W (S + 1)) - 1 = ceilLog 2 (ceilDiv W (S + 1)) from by omega]
  rw [diluteBitsCrumble_foldl W S (1 + ceilLog 2 (ceilDiv W (S + 1)))
    (ceilLog 2 (ceilDiv W (S + 1))) x]
  simp only [crumbleRound,
    show ∀ j, 1 + ceilLog 2 (ceilDiv W (S + 1)) - 1 - j = ceilLog 2 (ceilDiv W (S + 1)) - j
      from fun j => by omega]

/-- Counterexample for C3 as stated: at width 32, spacing 1, the first
non-base round (stepIndex 1, blockSize 8) maps the sanitized input 0x100 to
0x10000 (shift by blockSize*S = 8), while the spec formula with shift
blockSize*(S+1) = 16 would produce 0 there. -/
theorem crumble_round_shift_counterexample :
    diluteBitsCrumble 32 1 5 1 256 = 65536 ∧
      crumbleRoundSpec 32 1 (2 ^ (5 - 1 - 1)) 256 = 0 ∧ (65536 : Nat) ≠ 0 :=
  ⟨by decide, by decide, by decide⟩

/-- Counterexample for C6 as stated: for T of width 8 with L = 3, M = 4 and
the default repetition count N = ceilDiv(8, 7) = 2, the value
RectangularWave<T,3,4,2> = 0b1110000111 has bits 8 and 9 set, i.e. it is not
truncated to the 8 bits of T. -/
theorem rectangularWave_width_counterexample :
    rwDefaultN 8 3 4 = 2 ∧ rectangularWave 8 3 4 (rwDefaultN 8 3 4) = 903 ∧
      (rectangularWave 8 3 4 (rwDefaultN 8 3 4)).testBit 8 = true :=
  ⟨by decide, by decide, by decide⟩

/-- C6 (amended): RectangularWave<T,L,M,N>::value is held in the 64-bit
Longest type: every bit at position >= 64 is zero, but bits in [W, 64) may be
set when the repetitions overhang the width of T (truncation to W happens
only at the use site, by the assignment in DiluteBitsCrumble). -/
theorem rectangularWave_truncated_to_64 (W L M N : Nat) (hW1 : 1 ≤ W) (hW64 : W ≤ 64) :
    rectangularWave W L M N < 2 ^ 64 ∧
      ∀ p, 64 ≤ p → (rectangularWave W L M N).testBit p = false := by
  have hstep : step W L < 2 ^ 64 := by
    rw [step_eq W L hW1]
    have h1 : (2 : Nat) ^ min L W ≤ 2 ^ 64 :=
      Nat.pow_le_pow_right (by norm_num) (by omega)
    omega
  have hlt : rectangularWave W L M N < 2 ^ 64 := by
    induction N with
    | zero => show (0 : Nat) < 2 ^ 64; norm_num
    | succ N ihN =>
      cases N with
      | zero => exact hstep
      | succ n =>
        show ((rectangularWave W L M (n + 1) <<< (L + M)) % 2 ^ 64 ||| step W L) < 2 ^ 64
        exact Nat.or_lt_two_pow (Nat.mod_lt _ (by norm_num)) hstep
  exact ⟨hlt, fun p hp =>
    Nat.testBit_lt_two_pow (lt_of_lt_of_le hlt (Nat.pow_le_pow_right (by norm_num) hp))⟩

/-- Witness for the amended C6 at W = 8, L = 3, M = 4, N = 2. -/
theorem rectangularWave_truncated_to_64_witness :
    1 ≤ 8 ∧ 8 ≤ 64 ∧ rectangularWave 8 3 4 2 < 2 ^ 64 :=
  ⟨by decide, by decide, (rectangularWave_truncated_to_64 8 3 4 2 (by decide) (by decide)).1⟩

/-- C7: Step<T,n> is 0 for n = 0, has exactly the lowest n bits set for
0 < n < W, and saturates to the all-ones value of width W for every n >= W
(each recursion step shifts by a single bit and truncates, so no shift by W
or more positions is ever performed). -/
theorem step_saturation (W n : Nat) (hW : 1 ≤ W) (hn255 : n ≤ 255) :
    step W 0 = 0 ∧ (0 < n → n < W → step W n = 2 ^ n - 1) ∧
      (W ≤ n → step W n = 2 ^ W - 1) := by
  refine ⟨rfl, ?_, ?_⟩
  · intro _ h2
    rw [step_eq W n hW, Nat.min_eq_left (by omega)]
  · intro h
    rw [step_eq W n hW, Nat.min_eq_right (by omega)]

/-- Witness for C7 at W = 8, n = 5 and at the saturating count n = 12. -/
theorem step_saturation_witness :
    1 ≤ 8 ∧ 5 ≤ 255 ∧ step 8 5 = 2 ^ 5 - 1 ∧ step 8 12 = 2 ^ 8 - 1 :=
  ⟨by decide, by decide,
    (step_saturation 8 5 (by decide) (by decide)).2.1 (by decide) (by decide),
    (step_saturation 8 12 (by decide) (by decide)).2.2 (by decide)⟩

/-- C5 (code bug): FloorLog<B,X> does not compute floor(log_B(X)) for every
B >= 2: the specialization FloorLog<B,0> = 0 silently absorbs the final
division step, so for 1 < X < B the template yields 1 instead of 0
(e.g. FloorLog<3,2> = 1 while floor(log_3 2) = 0, and FloorLog<3,7> = 2
while floor(log_3 7) = 1), contradicting the doc comment of FloorLog. -/
theorem floorLog_not_floor_of_log :
    floorLog 3 2 = 1 ∧ Nat.log 3 2 = 0 ∧ floorLog 3 7 = 2 ∧ Nat.log 3 7 = 1 :=
  ⟨by decide, Nat.log_eq_of_pow_le_of_lt_pow (by norm_num) (by norm_num),
   by decide, Nat.log_eq_of_pow_le_of_lt_pow (by norm_num) (by norm_num)⟩

/-- C4 (code bug): diluteBitsRecursive<T,0> is rejected at compile time by
static_assert( nSpacing > 0 ) although the @tparam documentation promises
that spacing 0 returns the input unchanged; the underlying computation with
the assertion removed is indeed the identity on the example input. -/
theorem dilute_spacing_zero_rejected :
    diluteBitsRecursiveChecked 8 0 5 = none ∧ diluteBitsRecursive 8 0 5 = 5 := by
  exact ⟨rfl, by decide⟩

/-- C9: at width 8 and spacing 4 the input 0b00000111 is masked to
AllowedInputBits = ceil(8/5) = 2 low bits, giving 0b00000011, and dilutes to
exactly 0b00100001. -/
theorem dilution_concrete_example :
    ceilDiv 8 (4 + 1) = 2 ∧ (7 &&& step 8 (ceilDiv 8 (4 + 1))) = 3 ∧
      diluteBitsRecursive 8 4 7 = 33 :=
  ⟨by decide, by decide, by decide⟩
